import Mathlib

/-!
Verification of the constrained portfolio optimisation genetic algorithm.

The C++ sources are shallowly embedded over exact real numbers:
  * `double` values become `ℝ`; the special values the program manipulates
    explicitly (the +infinity and NaN results of the Sharpe computation, the
    -infinity and largest-finite-double fitness sentinels) are modelled by
    dedicated sum types (`FVal` for Sharpe results, `EReal` for fitness).
  * code that throws (`std::invalid_argument`, `std::runtime_error`) returns
    `Except ErrKind`, with one `ErrKind` constructor per distinct throw site
    family.
  * the pseudo-random parts of the genetic loop (initialisation, selection,
    crossover, mutation) are abstracted by an oracle `pops : ℕ → List (List ℝ)`
    giving each generation's population; the invariants proved below hold for
    every oracle, hence for every run of the program.
-/

namespace CPO

/-- Tolerance constant `EPSILON = 1e-8` from Constraints.hpp. -/
noncomputable def EPSILON : ℝ := 1e-8

/-- The largest finite `double`, `std::numeric_limits<double>::max()`:
`(2^53 - 1) * 2^971 = (2 - 2^-52) * 2^1023`. -/
noncomputable def DBL_MAX : ℝ := (2 ^ 53 - 1) * 2 ^ 971

/-- `std::numeric_limits<double>::lowest() = -DBL_MAX`, the "unconstrained"
target-return sentinel. -/
noncomputable def DBL_LOWEST : ℝ := -DBL_MAX

/-- Error conditions; the C++ code signals each by throwing. -/
inductive ErrKind
  /-- a `std::invalid_argument` for mismatched vector or matrix sizes -/
  | dimMismatch
  /-- the `std::runtime_error` thrown when Cholesky hits a pivot `≤ 0` -/
  | notPosDef
  /-- `validate_weights_sum_to_one` failure -/
  | badWeightSum
  /-- `validate_bounds` failure -/
  | badBounds
  /-- `validate_target_return` failure on a return below target -/
  | belowTarget
  /-- `normalize` failure when the weight sum is `< 1e-12` -/
  | normZero
  /-- out-of-bounds vector access (undefined behaviour in the C++) -/
  | oob
  deriving DecidableEq

/-- Inner product of two lists, truncating at the shorter one (the embedding
of the inner-product loops; every C++ call site uses equal lengths). -/
def dotZip (xs ys : List ℝ) : ℝ := (List.zipWith (fun a b => a * b) xs ys).sum

/-- The state `Portfolio` stores after construction: the mean-return vector
and the covariance matrix derived from the returns matrix.  The constructor
guarantees `means.length = num_assets` and that `cov` is square of the same
size, so the asset count is recovered from `means`. -/
structure Portfolio where
  means : List ℝ
  cov : List (List ℝ)

/-- `Portfolio::get_num_assets`. -/
def Portfolio.num_assets (p : Portfolio) : ℕ := p.means.length

/-- `Portfolio::portfolio_return`: `Σ wᵢ·meanᵢ`; throws on size mismatch. -/
noncomputable def portfolio_return (p : Portfolio) (w : List ℝ) : Except ErrKind ℝ :=
  if w.length = p.num_assets then
    .ok (∑ i in Finset.range p.num_assets, w.getD i 0 * p.means.getD i 0)
  else .error .dimMismatch

/-- `Portfolio::portfolio_variance`: `wᵗΣw` as an explicit double sum; throws
on size mismatch. -/
noncomputable def portfolio_variance (p : Portfolio) (w : List ℝ) : Except ErrKind ℝ :=
  if w.length = p.num_assets then
    .ok (∑ i in Finset.range p.num_assets, ∑ j in Finset.range p.num_assets,
      w.getD i 0 * w.getD j 0 * (p.cov.getD i []).getD j 0)
  else .error .dimMismatch

/-- `Portfolio::portfolio_risk`: `√(max 0 variance)`. -/
noncomputable def portfolio_risk (p : Portfolio) (w : List ℝ) : Except ErrKind ℝ :=
  (portfolio_variance p w).map (fun v => Real.sqrt (max 0 v))

/-- The value of a Sharpe-ratio computation: an ordinary real, the riskless
`+∞` sentinel, or NaN (which exact real arithmetic never produces but which
the fitness function explicitly dispatches on). -/
inductive FVal
  | fin (x : ℝ)
  | inf
  | nan

/-- `Portfolio::sharpe_ratio`: `(return - risk_free)/risk`, with `+∞` when
`risk < 1e-12` and the excess return exceeds `1e-12`, and exactly `0.0` when
`risk < 1e-12` otherwise. -/
noncomputable def sharpe_ratio (p : Portfolio) (w : List ℝ) (risk_free : ℝ) :
    Except ErrKind FVal := do
  let port_ret ← portfolio_return p w
  let port_risk ← portfolio_risk p w
  let excess_ret := port_ret - risk_free
  if port_risk < 1e-12 then
    if 1e-12 < excess_ret then .ok .inf else .ok (.fin 0)
  else
    .ok (.fin (excess_ret / port_risk))

/-- The scalar configuration of `GeneticOptimiser` (the fields its fitness
function and generational loop read; rates that only shape the random
reproduction are absorbed into the population oracle). -/
structure GAConfig where
  generations : ℕ
  lower_bound : ℝ
  upper_bound : ℝ
  target_return : ℝ
  sum_penalty_multiplier : ℝ
  bounds_penalty_multiplier : ℝ
  target_return_penalty_multiplier : ℝ
  risk_free_rate : ℝ

/-- The target-return penalty block of `GeneticOptimiser::calculate_fitness`
(part_000 lines 54-66): `0` under the sentinel, `100.0` on a length mismatch,
otherwise the shortfall below target.  `m` is the portfolio's mean vector, so
`m.length` is the asset count the mismatch test compares against. -/
noncomputable def goTargetPenalty (w m : List ℝ) (target_return : ℝ) : ℝ :=
  if DBL_LOWEST + EPSILON < target_return then
    if w.length ≠ m.length then 100
    else
      let current_return := ∑ i in Finset.range m.length, w.getD i 0 * m.getD i 0
      if current_return + EPSILON < target_return then target_return - current_return
      else 0
  else 0

/-- The final dispatch of `calculate_fitness` on the Sharpe value (part_000
lines 72-75): `+∞ ↦ -∞`, `NaN ↦ DBL_MAX`, otherwise `-sharpe + total_penalty`. -/
noncomputable def fitnessDispatch (sharpe : FVal) (total_penalty : ℝ) : EReal :=
  match sharpe with
  | .inf => ⊥
  | .nan => ((DBL_MAX : ℝ) : EReal)
  | .fin s => ((-s + total_penalty : ℝ) : EReal)

/-- `GeneticOptimiser::calculate_fitness`: penalised negative Sharpe ratio.
The only throwing subcall is `sharpe_ratio` (the target block guards its
`portfolio_return` call by the length check). -/
noncomputable def calculate_fitness (cfg : GAConfig) (p : Portfolio) (w : List ℝ) :
    Except ErrKind EReal := do
  let sum_penalty := |w.sum - 1|
  let sharpe ← sharpe_ratio p w cfg.risk_free_rate
  let bounds_penalty := (w.map (fun x =>
    (if x < cfg.lower_bound then cfg.lower_bound - x else 0) +
    (if cfg.upper_bound < x then x - cfg.upper_bound else 0))).sum
  let target_ret_penalty := goTargetPenalty w p.means cfg.target_return
  let total_penalty := sum_penalty * cfg.sum_penalty_multiplier +
    bounds_penalty * cfg.bounds_penalty_multiplier +
    target_ret_penalty * cfg.target_return_penalty_multiplier
  .ok (fitnessDispatch sharpe total_penalty)

/-! ## Constraints.hpp -/

/-- `validate_weights_sum_to_one`. -/
noncomputable def validate_weights_sum_to_one (w : List ℝ) : Except ErrKind Unit :=
  if |w.sum - 1| > EPSILON then .error .badWeightSum else .ok ()

/-- `validate_bounds`: throws at the first weight outside `[lower - ε, upper + ε]`. -/
noncomputable def validate_bounds : List ℝ → ℝ → ℝ → Except ErrKind Unit
  | [], _, _ => .ok ()
  | x :: rest, lower, upper =>
    if x < lower - EPSILON ∨ upper + EPSILON < x then .error .badBounds
    else validate_bounds rest lower upper

/-- `validate_target_return`: throws on a length mismatch, then on an expected
return more than `ε` below target. -/
noncomputable def validate_target_return (w m : List ℝ) (target_return : ℝ) :
    Except ErrKind Unit :=
  if w.length ≠ m.length then .error .dimMismatch
  else
    let expected_return := ∑ i in Finset.range w.length, w.getD i 0 * m.getD i 0
    if expected_return + EPSILON < target_return then .error .belowTarget
    else .ok ()

/-- `validate_weights`: all three checks in sequence, the target one only when
the target is above the sentinel. -/
noncomputable def validate_weights (w m : List ℝ) (lower upper target_return : ℝ) :
    Except ErrKind Unit := do
  validate_weights_sum_to_one w
  validate_bounds w lower upper
  if DBL_LOWEST + EPSILON < target_return then validate_target_return w m target_return
  else .ok ()

/-- `is_feasible`: catches every failure of `validate_weights` and reports it
as `false`. -/
noncomputable def is_feasible (w m : List ℝ) (lower upper target_return : ℝ) : Bool :=
  match validate_weights w m lower upper target_return with
  | .ok _ => true
  | .error _ => false

/-- The target-return block of the standalone `constraint_penalty` (part_002
lines 129-144); note the `1000.0` structural-mismatch constant. -/
noncomputable def cpTargetTerm (w m : List ℝ) (target_return : ℝ) : ℝ :=
  if DBL_LOWEST + EPSILON < target_return then
    if w.length ≠ m.length then 1000
    else
      let expected_return := ∑ i in Finset.range w.length, w.getD i 0 * m.getD i 0
      if expected_return + EPSILON < target_return then target_return - expected_return
      else 0
  else 0

/-- `constraint_penalty`: unweighted sum of the three violation terms (its
bounds conditions carry the `ε` slack, unlike the fitness path's). -/
noncomputable def constraint_penalty (w m : List ℝ) (lower upper target_return : ℝ) : ℝ :=
  |w.sum - 1| +
  (w.map (fun x =>
    (if x < lower - EPSILON then lower - x else 0) +
    (if upper + EPSILON < x then x - upper else 0))).sum +
  cpTargetTerm w m target_return

/-! ## Utils.hpp -/

/-- `normalize`: divides by the sum, failing hard when the sum is `< 1e-12`. -/
noncomputable def normalize (w : List ℝ) : Except ErrKind (List ℝ) :=
  if w.sum < 1e-12 then .error .normZero
  else .ok (w.map (fun x => x / w.sum))

/-- `clip_weights`: `std::clamp` of every weight into `[min_val, max_val]`
(`v < lo ? lo : hi < v ? hi : v`). -/
noncomputable def clip_weights (w : List ℝ) (min_val max_val : ℝ) : List ℝ :=
  w.map (fun x => if x < min_val then min_val else if max_val < x then max_val else x)

/-! ## The generational loop of `GeneticOptimiser::optimise`

The random draws are abstracted by an oracle `pops : ℕ → List (List ℝ)` giving
the population evaluated in each generation; everything proved over all
oracles holds for every actual run. -/

/-- The evaluation loop: fitness of every individual, an exception
propagating out. -/
noncomputable def fitnessesOf (cfg : GAConfig) (p : Portfolio) :
    List (List ℝ) → Except ErrKind (List EReal)
  | [] => .ok []
  | w :: rest => do
    let f ← calculate_fitness cfg p w
    let fs ← fitnessesOf cfg p rest
    .ok (f :: fs)

/-- `std::min_element` over the fitness vector: index and value of the first
minimum, starting from a current best. -/
noncomputable def minFrom : List EReal → ℕ → ℕ × EReal → ℕ × EReal
  | [], _, best => best
  | x :: rest, i, best =>
    minFrom rest (i + 1) (if x < best.2 then (i, x) else best)

/-- One generation's effect on the all-time-best tracker `(best_weights,
best_fitness)` (part_000 lines 155-163): evaluate the population, locate the
generation's best, and update the tracker only on a strict improvement.  An
empty population makes `fitnesses[best_idx]` an out-of-bounds access. -/
noncomputable def genStep (cfg : GAConfig) (p : Portfolio) (pop : List (List ℝ))
    (st : List ℝ × EReal) : Except ErrKind (List ℝ × EReal) := do
  let fits ← fitnessesOf cfg p pop
  match fits with
  | [] => .error .oob
  | f :: rest =>
    let best := minFrom rest 1 (0, f)
    if best.2 < st.2 then .ok (pop.getD best.1 [], best.2) else .ok st

/-- The tracker after `g` generations, starting from the empty vector and
`best_fitness = DBL_MAX` (part_000 lines 150-151). -/
noncomputable def runGens (cfg : GAConfig) (p : Portfolio) (pops : ℕ → List (List ℝ)) :
    ℕ → Except ErrKind (List ℝ × EReal)
  | 0 => .ok ([], ((DBL_MAX : ℝ) : EReal))
  | g + 1 => do
    let st ← runGens cfg p pops g
    genStep cfg p (pops g) st

/-- The population initialization of `GeneticOptimiser::optimise` (part_000
lines 141-147): each individual — drawn by `random_weights`, abstracted here
by the oracle `raw` — is clipped to the bounds and then renormalized, and the
renormalization throws when the clipped weights sum to `< 1e-12` (e.g. for
degenerate bounds such as `lower = upper = 0`). -/
noncomputable def initPopulation (cfg : GAConfig) :
    List (List ℝ) → Except ErrKind (List (List ℝ))
  | [] => .ok []
  | ind :: rest => do
    let v ← normalize (clip_weights ind cfg.lower_bound cfg.upper_bound)
    let vs ← initPopulation cfg rest
    .ok (v :: vs)

/-- `GeneticOptimiser::optimise` (part_000 lines 138-208): initialize the
population (clip + renormalize, which can throw), run the configured number
of generations — generation `0` evaluates the initial population, later
generations the oracle-supplied reproduced ones — recompute the tracked best
vector's fitness once more, and return the vector. -/
noncomputable def optimise (cfg : GAConfig) (p : Portfolio) (raw : List (List ℝ))
    (pops : ℕ → List (List ℝ)) : Except ErrKind (List ℝ) := do
  let init ← initPopulation cfg raw
  let st ← runGens cfg p (fun g => if g = 0 then init else pops g) cfg.generations
  let _final ← calculate_fitness cfg p st.1
  .ok st.1

/-- The final reported best fitness (part_000 lines 200-202): the tracked best,
lowered once more if the consistency recomputation comes out smaller. -/
noncomputable def optimiseFinalFitness (cfg : GAConfig) (p : Portfolio)
    (pops : ℕ → List (List ℝ)) : Except ErrKind EReal := do
  let st ← runGens cfg p pops cfg.generations
  let final ← calculate_fitness cfg p st.1
  .ok (if final < st.2 then final else st.2)

/-! ## Matrix.cpp

A matrix is its row list; the C++ class additionally stores `rows`/`cols`,
which for the rectangular data the constructor enforces coincide with
`A.length` and the common row length. -/

/-- `Matrix::transpose`: `result(j, i) = data[i][j]`, a `cols × rows` matrix. -/
def mtranspose (A : List (List ℝ)) : List (List ℝ) :=
  (List.range (A.headD []).length).map (fun j => A.map (fun row => row.getD j 0))

/-- `Matrix::dot`: `result(i, j) = Σ_k A(i, k) · B(k, j)` (on the
dimension-checked inputs of its call sites). -/
def mdot (A B : List (List ℝ)) : List (List ℝ) :=
  A.map (fun arow => (List.range (B.headD []).length).map (fun j =>
    dotZip arow (B.map (fun brow => brow.getD j 0))))

/-- The inner `j`-loop of `Matrix::cholesky_decompose` computing the
off-diagonal entries `L(i, j) = (A(i, j) - Σ_{k<j} L(i,k)·L(j,k)) / L(j, j)`
of row `i`: one entry per already-finished row `Lj`, appended to the partial
row `acc` (so `acc.length` is the current column index `j`). -/
noncomputable def cholRowGo (aRow : List ℝ) : List (List ℝ) → List ℝ → List ℝ
  | [], acc => acc
  | Lj :: rest, acc =>
    cholRowGo aRow rest
      (acc ++ [(aRow.getD acc.length 0 - dotZip acc Lj) / Lj.getD acc.length 0])

/-- The non-failing body of one `i`-iteration of `Matrix::cholesky_decompose`:
row `i`'s off-diagonal prefix, then `√pivot` on the diagonal, then zeros. -/
noncomputable def cholStepT (n : ℕ) (done : List (List ℝ)) (aRow : List ℝ) :
    List (List ℝ) :=
  done ++ [cholRowGo aRow done [] ++
    Real.sqrt (aRow.getD done.length 0 -
      dotZip (cholRowGo aRow done []) (cholRowGo aRow done [])) ::
    List.replicate (n - (done.length + 1)) 0]

/-- One `i`-iteration of `Matrix::cholesky_decompose`: compute row `i`'s
off-diagonal prefix, then the diagonal pivot `A(i, i) - Σ_{k<i} L(i,k)²`,
failing when it is `≤ 0`, else closing the row with `√pivot` and zeros. -/
noncomputable def cholStep (n : ℕ) (done : List (List ℝ)) (aRow : List ℝ) :
    Except ErrKind (List (List ℝ)) :=
  if aRow.getD done.length 0 -
      dotZip (cholRowGo aRow done []) (cholRowGo aRow done []) ≤ 0 then
    .error .notPosDef
  else .ok (cholStepT n done aRow)

/-- `Matrix::cholesky_decompose`: square check, then the row loop. -/
noncomputable def cholesky_decompose (A : List (List ℝ)) :
    Except ErrKind (List (List ℝ)) :=
  if (A.headD []).length = A.length then A.foldlM (cholStep A.length) []
  else .error .dimMismatch

/-- The rows the (non-failing) factorization run has built after `i` source
rows. -/
noncomputable def cholDoneT (A : List (List ℝ)) (i : ℕ) : List (List ℝ) :=
  (A.take i).foldl (cholStepT A.length) []

/-- The diagonal term the factorization tests at row `i`:
`A(i, i) - Σ_{k<i} L(i, k)²` over the rows built so far. -/
noncomputable def cholPivot (A : List (List ℝ)) (i : ℕ) : ℝ :=
  (A.getD i []).getD i 0 -
    dotZip (cholRowGo (A.getD i []) (cholDoneT A i) [])
      (cholRowGo (A.getD i []) (cholDoneT A i) [])

/-! ## Definitions transcribed from the specification's words

These two follow the spec text (sections 4.3 and 7), not the C++; the theorems
below compare the code against them. -/

/-- Target penalty as section 4.3 words it: `0` when the target is the
unconstrained sentinel or the expected return is at least `target - ε`,
otherwise the shortfall `target - expected_return`. -/
noncomputable def specTargetPenalty (w m : List ℝ) (target_return : ℝ) : ℝ :=
  if target_return ≤ DBL_LOWEST + EPSILON ∨ target_return - EPSILON ≤ dotZip w m then 0
  else target_return - dotZip w m

/-- "Some constraint is violated beyond tolerance ε" as the spec enumerates
the constraints: sum-to-one, per-asset bounds, and (when the target is not
the sentinel) the target return. -/
noncomputable def specViolation (w m : List ℝ) (lower upper target_return : ℝ) : Prop :=
  EPSILON < |w.sum - 1| ∨
  (∃ x ∈ w, x < lower - EPSILON ∨ upper + EPSILON < x) ∨
  (DBL_LOWEST + EPSILON < target_return ∧ dotZip w m + EPSILON < target_return)

/-- Squareness of a row-list matrix: every row as long as there are rows
(the `Matrix` class stores rectangular data, and `rows = cols` is what the
Cholesky entry check accepts). -/
def IsSquare (A : List (List ℝ)) : Prop := ∀ r ∈ A, r.length = A.length

/-- Entrywise symmetry of a row-list matrix. -/
def IsSymm (A : List (List ℝ)) : Prop :=
  ∀ i j, (A.getD i []).getD j 0 = (A.getD j []).getD i 0

/-- The invariant of the Cholesky row loop: after some rows of the factor
have been built, they are rows of the full width, zero above the diagonal,
positive on the diagonal, and their pairwise inner products reproduce the
processed lower-left block of `A`. -/
structure CholInv (A : List (List ℝ)) (done : List (List ℝ)) : Prop where
  hlen : done.length ≤ A.length
  hrow : ∀ r ∈ done, r.length = A.length
  hupper : ∀ p j, p < done.length → p < j → (done.getD p []).getD j 0 = 0
  hdiag : ∀ p, p < done.length → 0 < (done.getD p []).getD p 0
  hrec : ∀ p q, q ≤ p → p < done.length →
    dotZip (done.getD p []) (done.getD q []) = (A.getD p []).getD q 0

/-! ## Concrete instances used by the witnesses -/

/-- A one-asset portfolio with mean return `1` and variance `1`. -/
noncomputable def P1 : Portfolio := ⟨[1], [[1]]⟩

/-- A one-asset portfolio with mean return `1` and variance `0` (riskless
positive excess, the `+∞` Sharpe case). -/
noncomputable def PZ : Portfolio := ⟨[1], [[0]]⟩

/-- A one-asset portfolio whose stored covariance is `-1` (exercises the
`max 0` guard of `portfolio_risk`). -/
noncomputable def PNEG : Portfolio := ⟨[1], [[-1]]⟩

/-- A one-asset portfolio with mean return `0` and variance `1` (zero excess
return at positive risk: Sharpe is exactly `0` on the ordinary path). -/
noncomputable def PM0 : Portfolio := ⟨[0], [[1]]⟩

/-- One generation, bounds `[0, 1]`, unconstrained target, the constructor's
default multipliers, zero risk-free rate. -/
noncomputable def CFG1 : GAConfig := ⟨1, 0, 1, DBL_LOWEST, 100, 100, 1000, 0⟩

/-- The same configuration with a generation count of `0`. -/
noncomputable def CFG0 : GAConfig := ⟨0, 0, 1, DBL_LOWEST, 100, 100, 1000, 0⟩

/-- A zero-generation configuration with the degenerate bounds
`lower = upper = 0`, under which clipping zeroes every weight and the
initialization's renormalization throws. -/
noncomputable def CFGD : GAConfig := ⟨0, 0, 0, DBL_LOWEST, 100, 100, 1000, 0⟩

/-- A constant population oracle: every generation evaluates the single
individual `[1]`. -/
noncomputable def POPS1 : ℕ → List (List ℝ) := fun _ => [[1]]

/-! ## Basic list lemmas -/

lemma sum_map_div (w : List ℝ) (s : ℝ) : (w.map (fun x => x / s)).sum = w.sum / s := by
  induction w with
  | nil => simp
  | cons a t ih => simp [ih, add_div]

lemma dotZip_nil_left (ys : List ℝ) : dotZip [] ys = 0 := by simp [dotZip]

lemma dotZip_nil_right (xs : List ℝ) : dotZip xs [] = 0 := by simp [dotZip]

lemma dotZip_cons (x y : ℝ) (xs ys : List ℝ) :
    dotZip (x :: xs) (y :: ys) = x * y + dotZip xs ys := by simp [dotZip]

lemma dotZip_eq_sum_min (xs ys : List ℝ) :
    dotZip xs ys =
      ∑ i in Finset.range (min xs.length ys.length), xs.getD i 0 * ys.getD i 0 := by
  induction xs generalizing ys with
  | nil => simp [dotZip]
  | cons x xs ih =>
    cases ys with
    | nil => simp [dotZip]
    | cons y ys =>
      rw [dotZip_cons, ih, List.length_cons, List.length_cons, Nat.succ_min_succ,
        Finset.sum_range_succ']
      simp only [List.getD_cons_succ, List.getD_cons_zero]
      ring

lemma dotZip_length_eq (xs ys : List ℝ) (h : xs.length = ys.length) :
    dotZip xs ys = ∑ i in Finset.range ys.length, xs.getD i 0 * ys.getD i 0 := by
  rw [dotZip_eq_sum_min, h, min_self]

/-! ## Claim C9 -/

/-- Claim C9: for every size-matched weight vector, `portfolio_risk` equals
the square root of `max 0 (portfolio_variance w)` — the square root is never
taken of a negative number — and the result is non-negative, including when
the variance is negative. -/
theorem claim9_risk_nonneg (p : Portfolio) (w : List ℝ)
    (h : w.length = p.num_assets) :
    ∃ v, portfolio_variance p w = .ok v ∧
      portfolio_risk p w = .ok (Real.sqrt (max 0 v)) ∧
      ∀ r, portfolio_risk p w = .ok r → 0 ≤ r := by
  refine ⟨∑ i in Finset.range p.num_assets, ∑ j in Finset.range p.num_assets,
    w.getD i 0 * w.getD j 0 * (p.cov.getD i []).getD j 0, ?_, ?_, ?_⟩
  · simp [portfolio_variance, h]
  · simp [portfolio_risk, portfolio_variance, h, Except.map]
  · intro r hr
    simp [portfolio_risk, portfolio_variance, h, Except.map] at hr
    exact hr ▸ Real.sqrt_nonneg _

/-- Claim C9 witness: the portfolio whose stored covariance entry is `-1`
has variance `-1` at `w = [1]`, yet risk `√(max 0 (-1)) = 0 ≥ 0`. -/
theorem claim9_witness :
    [(1 : ℝ)].length = PNEG.num_assets ∧
    (∃ v, portfolio_variance PNEG [1] = .ok v ∧
      portfolio_risk PNEG [1] = .ok (Real.sqrt (max 0 v)) ∧
      ∀ r, portfolio_risk PNEG [1] = .ok r → 0 ≤ r) ∧
    portfolio_variance PNEG [1] = .ok (-1) ∧ portfolio_risk PNEG [1] = .ok 0 := by
  refine ⟨rfl, claim9_risk_nonneg PNEG [1] rfl, ?_, ?_⟩
  · norm_num [portfolio_variance, Portfolio.num_assets, PNEG]
  · norm_num [portfolio_risk, portfolio_variance, Portfolio.num_assets, PNEG, Except.map]

/-! ## Claim C8 -/

/-- Claim C8: `normalize` succeeds exactly on weight vectors whose sum is not
below `1e-12`; for sums above `1e-12` it is idempotent and its result sums to
`1` within `1e-9`. -/
theorem claim8_normalize (w : List ℝ) :
    (1e-12 < w.sum →
      ∃ v, normalize w = .ok v ∧ normalize v = .ok v ∧ |v.sum - 1| ≤ 1e-9) ∧
    ((∃ e, normalize w = .error e) ↔ w.sum < 1e-12) := by
  constructor
  · intro hs
    have hs0 : w.sum ≠ 0 := by positivity
    have hnot : ¬ w.sum < 1e-12 := not_lt.mpr (le_of_lt hs)
    have hv : (w.map (fun x => x / w.sum)).sum = 1 := by
      rw [sum_map_div, div_self hs0]
    refine ⟨w.map (fun x => x / w.sum), ?_, ?_, ?_⟩
    · simp [normalize, hnot]
    · have hnot1 : ¬ (w.map (fun x => x / w.sum)).sum < 1e-12 := by
        rw [hv]; norm_num
      simp only [normalize, hnot1, if_false]
      rw [hv]
      simp
    · rw [hv]; norm_num
  · constructor
    · rintro ⟨e, he⟩
      by_contra hlt
      simp [normalize, hlt] at he
    · intro hlt
      exact ⟨ErrKind.normZero, by simp [normalize, hlt]⟩

/-- Claim C8 witness: at `w = [2]` the sum is `2 > 1e-12`, `normalize`
returns `[1]`, and renormalizing changes nothing. -/
theorem claim8_witness :
    (1e-12 < ([(2 : ℝ)]).sum) ∧
    (∃ v, normalize [(2 : ℝ)] = .ok v ∧ normalize v = .ok v ∧ |v.sum - 1| ≤ 1e-9) ∧
    normalize [(2 : ℝ)] = .ok [1] := by
  refine ⟨by norm_num, (claim8_normalize [2]).1 (by norm_num), ?_⟩
  norm_num [normalize]

/-! ## Claim C3 -/

/-- Claim C3: the fitness function maps an infinite Sharpe value to fitness
`-∞` and a NaN Sharpe value to the largest finite representable double, in
both cases independently of the penalty terms (the dispatch ignores them). -/
theorem claim3_sentinel_mapping :
    (∀ (cfg : GAConfig) (p : Portfolio) (w : List ℝ),
      sharpe_ratio p w cfg.risk_free_rate = .ok FVal.inf →
      calculate_fitness cfg p w = .ok ⊥) ∧
    (∀ pen : ℝ, fitnessDispatch FVal.inf pen = ⊥) ∧
    (∀ pen : ℝ, fitnessDispatch FVal.nan pen = ((DBL_MAX : ℝ) : EReal)) ∧
    (∀ (cfg : GAConfig) (p : Portfolio) (w : List ℝ),
      sharpe_ratio p w cfg.risk_free_rate = .ok FVal.nan →
      calculate_fitness cfg p w = .ok ((DBL_MAX : ℝ) : EReal)) := by
  refine ⟨?_, fun _ => rfl, fun _ => rfl, ?_⟩ <;>
    · intro cfg p w hs
      simp [calculate_fitness, hs, bind, Except.bind, fitnessDispatch]

/-- Claim C3 witness: the riskless positive-excess portfolio `PZ` realizes an
infinite Sharpe value, and its fitness is `-∞`. -/
theorem claim3_witness :
    sharpe_ratio PZ [1] CFG1.risk_free_rate = .ok FVal.inf ∧
    calculate_fitness CFG1 PZ [1] = .ok ⊥ := by
  have h : sharpe_ratio PZ [1] CFG1.risk_free_rate = .ok FVal.inf := by
    norm_num [sharpe_ratio, portfolio_return, portfolio_risk, portfolio_variance,
      Portfolio.num_assets, PZ, CFG1, Except.map, bind, Except.bind]
  exact ⟨h, claim3_sentinel_mapping.1 CFG1 PZ [1] h⟩

/-! ## Claim C4 -/

/-- Claim C4 counterexample: at the portfolio with mean `0` and variance `1`
and `w = [1]`, the Sharpe ratio is exactly `0.0` through the ordinary
division path although the risk is `1`, not `< 1e-12` — so "returns exactly
0.0 iff risk < 1e-12 and excess ≤ 1e-12" fails in the only-if direction. -/
theorem claim4_counterexample :
    sharpe_ratio PM0 [1] 0 = .ok (FVal.fin 0) ∧
    portfolio_risk PM0 [1] = .ok 1 ∧ ¬ ((1 : ℝ) < 1e-12) := by
  norm_num [sharpe_ratio, portfolio_return, portfolio_risk, portfolio_variance,
    Portfolio.num_assets, PM0, Except.map, bind, Except.bind]

/-- Claim C4 (amended): `sharpe_ratio` returns `+∞` iff the risk is `< 1e-12`
and the excess return exceeds `1e-12`; when the risk is `< 1e-12` and the
excess return is `≤ 1e-12` it returns exactly `0.0` — but `0.0` can also be
returned on the ordinary path, so the 0.0 direction is one-sided. -/
theorem claim4_sharpe_cases (p : Portfolio) (w : List ℝ) (risk_free ret rk : ℝ)
    (hret : portfolio_return p w = .ok ret)
    (hrk : portfolio_risk p w = .ok rk) :
    (sharpe_ratio p w risk_free = .ok FVal.inf ↔
      rk < 1e-12 ∧ 1e-12 < ret - risk_free) ∧
    (rk < 1e-12 ∧ ret - risk_free ≤ 1e-12 →
      sharpe_ratio p w risk_free = .ok (FVal.fin 0)) := by
  simp only [sharpe_ratio, hret, hrk, bind, Except.bind]
  constructor
  · by_cases h1 : rk < 1e-12
    · by_cases h2 : 1e-12 < ret - risk_free
      · simp [h1, h2]
      · simp [h1, h2]
    · simp [h1]
  · rintro ⟨h1, h2⟩
    simp [h1, not_lt.mpr h2]

/-- Claim C4 witness: at `PZ` and `w = [1]` the hypotheses hold with return
`1` and risk `0`, and both amended cases are realized. -/
theorem claim4_witness :
    portfolio_return PZ [1] = .ok 1 ∧ portfolio_risk PZ [1] = .ok 0 ∧
    ((sharpe_ratio PZ [1] 0 = .ok FVal.inf ↔
        (0 : ℝ) < 1e-12 ∧ 1e-12 < (1 : ℝ) - 0) ∧
      ((0 : ℝ) < 1e-12 ∧ (1 : ℝ) - 0 ≤ 1e-12 →
        sharpe_ratio PZ [1] 0 = .ok (FVal.fin 0))) := by
  have h1 : portfolio_return PZ [1] = .ok 1 := by
    norm_num [portfolio_return, Portfolio.num_assets, PZ]
  have h2 : portfolio_risk PZ [1] = .ok 0 := by
    norm_num [portfolio_risk, portfolio_variance, Portfolio.num_assets, PZ, Except.map]
  exact ⟨h1, h2, claim4_sharpe_cases PZ [1] 0 1 0 h1 h2⟩

/-! ## Claim C1 -/

lemma bounds_if_max (l u x : ℝ) :
    (if x < l then l - x else 0) + (if u < x then x - u else 0) =
      max 0 (l - x) + max 0 (x - u) := by
  congr 1
  · by_cases h : x < l
    · rw [if_pos h, max_eq_right (by linarith : (0 : ℝ) ≤ l - x)]
    · rw [if_neg h, max_eq_left (by linarith [not_lt.mp h] : l - x ≤ 0)]
  · by_cases h : u < x
    · rw [if_pos h, max_eq_right (by linarith : (0 : ℝ) ≤ x - u)]
    · rw [if_neg h, max_eq_left (by linarith [not_lt.mp h] : x - u ≤ 0)]

lemma goTarget_eq_spec (w m : List ℝ) (t : ℝ) (h : w.length = m.length) :
    goTargetPenalty w m t = specTargetPenalty w m t := by
  unfold goTargetPenalty specTargetPenalty
  have hd : dotZip w m = ∑ i in Finset.range m.length, w.getD i 0 * m.getD i 0 :=
    dotZip_length_eq w m h
  by_cases hs : DBL_LOWEST + EPSILON < t
  · rw [if_pos hs, if_neg (by simp [h])]
    by_cases hr : (∑ i in Finset.range m.length, w.getD i 0 * m.getD i 0) + EPSILON < t
    · rw [if_pos hr, if_neg, hd]
      rw [not_or, hd]
      exact ⟨not_le.mpr hs, not_le.mpr (by linarith)⟩
    · rw [if_neg hr, if_pos (Or.inr (by rw [hd]; linarith [not_lt.mp hr]))]
  · rw [if_neg hs, if_pos (Or.inl (not_lt.mp hs))]

/-- Claim C1: for a size-matched weight vector with a finite, non-NaN Sharpe
value `s`, the fitness equals
`-s + sum_penalty·mult + bounds_penalty·mult + target_penalty·mult`, the
bounds penalty written with `max 0` and the target penalty as section 4.3
defines it. -/
theorem claim1_fitness_formula (cfg : GAConfig) (p : Portfolio) (w : List ℝ) (s : ℝ)
    (h : w.length = p.num_assets)
    (hs : sharpe_ratio p w cfg.risk_free_rate = .ok (FVal.fin s)) :
    calculate_fitness cfg p w = .ok
      ((-s + (|w.sum - 1| * cfg.sum_penalty_multiplier +
        (w.map (fun x =>
          max 0 (cfg.lower_bound - x) + max 0 (x - cfg.upper_bound))).sum *
          cfg.bounds_penalty_multiplier +
        specTargetPenalty w p.means cfg.target_return *
          cfg.target_return_penalty_multiplier) : ℝ) : EReal) := by
  have hb : (w.map (fun x =>
      (if x < cfg.lower_bound then cfg.lower_bound - x else 0) +
      (if cfg.upper_bound < x then x - cfg.upper_bound else 0))).sum =
      (w.map (fun x =>
        max 0 (cfg.lower_bound - x) + max 0 (x - cfg.upper_bound))).sum := by
    refine congrArg List.sum (List.map_congr_left fun x _ => ?_)
    exact bounds_if_max cfg.lower_bound cfg.upper_bound x
  have ht : goTargetPenalty w p.means cfg.target_return =
      specTargetPenalty w p.means cfg.target_return := goTarget_eq_spec _ _ _ h
  simp only [calculate_fitness, hs, bind, Except.bind, fitnessDispatch, hb, ht]

/-- Claim C1 witness: at the unit portfolio and `w = [1]` the Sharpe value is
the finite `1`, and the fitness is exactly the claimed penalised negative
Sharpe expression (which there evaluates to `-1`). -/
theorem claim1_witness :
    ([(1 : ℝ)].length = P1.num_assets) ∧
    sharpe_ratio P1 [1] CFG1.risk_free_rate = .ok (FVal.fin 1) ∧
    calculate_fitness CFG1 P1 [1] = .ok
      ((-1 + (|([(1 : ℝ)]).sum - 1| * CFG1.sum_penalty_multiplier +
        (([(1 : ℝ)]).map (fun x =>
          max 0 (CFG1.lower_bound - x) + max 0 (x - CFG1.upper_bound))).sum *
          CFG1.bounds_penalty_multiplier +
        specTargetPenalty [1] P1.means CFG1.target_return *
          CFG1.target_return_penalty_multiplier) : ℝ) : EReal) ∧
    calculate_fitness CFG1 P1 [1] = .ok ((-1 : ℝ) : EReal) := by
  have hs : sharpe_ratio P1 [1] CFG1.risk_free_rate = .ok (FVal.fin 1) := by
    norm_num [sharpe_ratio, portfolio_return, portfolio_risk, portfolio_variance,
      Portfolio.num_assets, P1, CFG1, Except.map, bind, Except.bind]
  have hc := claim1_fitness_formula CFG1 P1 [1] 1 rfl hs
  refine ⟨rfl, hs, hc, ?_⟩
  rw [hc]
  norm_num [specTargetPenalty, P1, CFG1, dotZip_cons, dotZip_nil_left, EPSILON]

/-! ## Claim C2 -/

/-- Claim C2 counterexample: on a structural mismatch (weights `[1]`, empty
mean vector, non-sentinel target `0`) the standalone `constraint_penalty`
target term is `1000.0`, not the claimed `100.0` (which is what the fitness
path uses). -/
theorem claim2_counterexample :
    cpTargetTerm [1] [] 0 = 1000 ∧ goTargetPenalty [1] [] 0 = 100 ∧
    (1000 : ℝ) ≠ 100 := by
  have hs : DBL_LOWEST + EPSILON < (0 : ℝ) := by
    norm_num [DBL_LOWEST, DBL_MAX, EPSILON]
  refine ⟨?_, ?_, by norm_num⟩ <;>
    simp [cpTargetTerm, goTargetPenalty, hs]

/-- Claim C2 (amended): the target-return term is `0` under the sentinel;
on a structural mismatch it is the fixed `1000.0` in the standalone
`constraint_penalty` and the fixed `100.0` in the optimizer's fitness path;
otherwise both equal `0` when the expected return is within `ε` of the
target and the shortfall `target - expected_return` when not. -/
theorem claim2_target_terms (w m : List ℝ) (t : ℝ) :
    cpTargetTerm w m t =
      (if t ≤ DBL_LOWEST + EPSILON then 0
       else if w.length ≠ m.length then 1000
       else if dotZip w m + EPSILON < t then t - dotZip w m else 0) ∧
    goTargetPenalty w m t =
      (if t ≤ DBL_LOWEST + EPSILON then 0
       else if w.length ≠ m.length then 100
       else if dotZip w m + EPSILON < t then t - dotZip w m else 0) := by
  unfold cpTargetTerm goTargetPenalty
  by_cases hs : DBL_LOWEST + EPSILON < t
  · by_cases hm : w.length = m.length
    · have hgo : (∑ i in Finset.range m.length, w.getD i 0 * m.getD i 0) =
          dotZip w m := (dotZip_length_eq w m hm).symm
      simp only [List.getD_eq_getElem?_getD] at hgo
      simp [hm, hs, not_le.mpr hs, hgo]
    · simp [hm, hs, not_le.mpr hs]
  · simp [hs, not_lt.mp hs]

/-! ## Claim C7 -/

lemma except_unit_cases (r : Except ErrKind Unit) :
    r = .ok () ∨ ∃ e, r = .error e := by
  cases r with
  | ok v => cases v; exact Or.inl rfl
  | error e => exact Or.inr ⟨e, rfl⟩

lemma validate_bounds_error_iff (w : List ℝ) (l u : ℝ) :
    (∃ e, validate_bounds w l u = .error e) ↔
      ∃ x ∈ w, x < l - EPSILON ∨ u + EPSILON < x := by
  induction w with
  | nil => simp [validate_bounds]
  | cons x rest ih =>
    by_cases hx : x < l - EPSILON ∨ u + EPSILON < x
    · simp [validate_bounds, hx]
    · simp [validate_bounds, hx, ih]

lemma validate_bounds_ok (w : List ℝ) (l u : ℝ)
    (h : ¬ ∃ x ∈ w, x < l - EPSILON ∨ u + EPSILON < x) :
    validate_bounds w l u = .ok () := by
  rcases except_unit_cases (validate_bounds w l u) with hk | ⟨e, he⟩
  · exact hk
  · exact absurd ((validate_bounds_error_iff w l u).mp ⟨e, he⟩) h

/-- Claim C7 counterexample: with weights `[1]`, an empty mean vector and the
non-sentinel target `0`, the strict validator throws (the size-mismatch error
of `validate_target_return`) although no constraint of the spec's list is
violated beyond tolerance — so "raises an error iff some constraint is
violated beyond ε" fails. -/
theorem claim7_counterexample :
    validate_weights [1] [] 0 1 0 = .error ErrKind.dimMismatch ∧
    ¬ specViolation [1] [] 0 1 0 := by
  have hs : DBL_LOWEST + EPSILON < (0 : ℝ) := by
    norm_num [DBL_LOWEST, DBL_MAX, EPSILON]
  constructor
  · norm_num [validate_weights, validate_weights_sum_to_one, validate_bounds,
      validate_target_return, bind, Except.bind, EPSILON, DBL_LOWEST, DBL_MAX]
  · norm_num [specViolation, dotZip, EPSILON, DBL_LOWEST, DBL_MAX]

/-- Claim C7 (amended): `is_feasible` is true exactly when `validate_weights`
raises no error (it catches everything), and `validate_weights` raises an
error exactly when a constraint is violated beyond `ε` **or**, when the
target is not the sentinel, the weight and mean vectors differ in length
(the structural-mismatch error the claim's enumeration omits). -/
theorem claim7_validator (w m : List ℝ) (lower upper t : ℝ) :
    (is_feasible w m lower upper t = true ↔
      validate_weights w m lower upper t = .ok ()) ∧
    ((∃ e, validate_weights w m lower upper t = .error e) ↔
      specViolation w m lower upper t ∨
        (DBL_LOWEST + EPSILON < t ∧ w.length ≠ m.length)) := by
  constructor
  · unfold is_feasible
    rcases except_unit_cases (validate_weights w m lower upper t) with hk | ⟨e, he⟩
    · simp [hk]
    · simp [he]
  · unfold validate_weights specViolation
    by_cases c1 : |w.sum - 1| > EPSILON
    · simp [validate_weights_sum_to_one, c1, bind, Except.bind]
    · by_cases c2 : ∃ x ∈ w, x < lower - EPSILON ∨ upper + EPSILON < x
      · obtain ⟨e0, he0⟩ := (validate_bounds_error_iff w lower upper).mpr c2
        simp [validate_weights_sum_to_one, c1, he0, bind, Except.bind, c2]
      · have hb := validate_bounds_ok w lower upper c2
        by_cases c3 : DBL_LOWEST + EPSILON < t
        · by_cases c4 : w.length = m.length
          · have hd : (∑ i in Finset.range m.length, w.getD i 0 * m.getD i 0) =
                dotZip w m := (dotZip_length_eq w m c4).symm
            simp only [List.getD_eq_getElem?_getD] at hd
            by_cases c5 : dotZip w m + EPSILON < t
            · simp [validate_weights_sum_to_one, c1, hb, bind, Except.bind, c3,
                validate_target_return, c4, hd, c5, c2]
            · simp [validate_weights_sum_to_one, c1, hb, bind, Except.bind, c3,
                validate_target_return, c4, hd, c5, c2]
          · simp [validate_weights_sum_to_one, c1, hb, bind, Except.bind, c3,
              validate_target_return, c4, c2]
        · simp [validate_weights_sum_to_one, c1, hb, bind, Except.bind, c3, c2]

/-! ## Claim C6 -/

/-- Claim C6: the tracked all-time-best fitness never increases: a successful
generation step leaves it unchanged unless the generation's minimum is
strictly lower; across consecutive generations of any run it is
non-increasing; and the final consistency recomputation can only lower the
reported best. -/
theorem claim6_best_monotone :
    (∀ (cfg : GAConfig) (p : Portfolio) (pop : List (List ℝ)) st st',
      genStep cfg p pop st = .ok st' →
      st'.2 ≤ st.2 ∧ (st' = st ∨ st'.2 < st.2)) ∧
    (∀ (cfg : GAConfig) (p : Portfolio) (pops : ℕ → List (List ℝ)) (g : ℕ) st',
      runGens cfg p pops (g + 1) = .ok st' →
      ∃ st, runGens cfg p pops g = .ok st ∧ st'.2 ≤ st.2) ∧
    (∀ (cfg : GAConfig) (p : Portfolio) (pops : ℕ → List (List ℝ)) st v,
      runGens cfg p pops cfg.generations = .ok st →
      optimiseFinalFitness cfg p pops = .ok v → v ≤ st.2) := by
  have hstep : ∀ (cfg : GAConfig) (p : Portfolio) (pop : List (List ℝ)) st st',
      genStep cfg p pop st = .ok st' →
      st'.2 ≤ st.2 ∧ (st' = st ∨ st'.2 < st.2) := by
    intro cfg p pop st st' h
    unfold genStep at h
    cases hf : fitnessesOf cfg p pop with
    | error e => rw [hf] at h; simp [bind, Except.bind] at h
    | ok fits =>
      rw [hf] at h
      simp only [bind, Except.bind] at h
      cases fits with
      | nil => simp at h
      | cons f rest =>
        replace h : (if (minFrom rest 1 (0, f)).2 < st.2 then
            (Except.ok (pop.getD (minFrom rest 1 (0, f)).1 [],
              (minFrom rest 1 (0, f)).2) : Except ErrKind (List ℝ × EReal))
          else Except.ok st) = Except.ok st' := h
        by_cases hlt : (minFrom rest 1 (0, f)).2 < st.2
        · rw [if_pos hlt] at h
          injection h with h
          rw [← h]
          exact ⟨le_of_lt hlt, Or.inr hlt⟩
        · rw [if_neg hlt] at h
          injection h with h
          rw [← h]
          exact ⟨le_refl _, Or.inl rfl⟩
  refine ⟨hstep, ?_, ?_⟩
  · intro cfg p pops g st' h
    rw [show g + 1 = g + 1 from rfl] at h
    unfold runGens at h
    cases hg : runGens cfg p pops g with
    | error e => rw [hg] at h; simp [bind, Except.bind] at h
    | ok st =>
      rw [hg] at h
      simp only [bind, Except.bind] at h
      exact ⟨st, rfl, (hstep _ _ _ _ _ h).1⟩
  · intro cfg p pops st v h1 h2
    unfold optimiseFinalFitness at h2
    rw [h1] at h2
    simp only [bind, Except.bind] at h2
    cases hc : calculate_fitness cfg p st.1 with
    | error e => rw [hc] at h2; simp at h2
    | ok f =>
      rw [hc] at h2
      simp only at h2
      injection h2 with h2
      rw [← h2]
      by_cases hlt : f < st.2
      · rw [if_pos hlt]; exact le_of_lt hlt
      · rw [if_neg hlt]

/-- Claim C6 witness: one concrete generation step from the initial tracker
`([], DBL_MAX)` with population `[[1]]` lowers the best fitness to `-1`. -/
theorem claim6_witness :
    genStep CFG1 P1 [[1]] ([], ((DBL_MAX : ℝ) : EReal)) =
      .ok ([1], ((-1 : ℝ) : EReal)) ∧
    ((-1 : ℝ) : EReal) ≤ ((DBL_MAX : ℝ) : EReal) := by
  have hcoe : ((-1 : ℝ) : EReal) = (-1 : EReal) := by
    rw [show (-1 : ℝ) = -(1 : ℝ) from rfl, EReal.coe_neg, EReal.coe_one]
  have hcmp : (-1 : EReal) < ((DBL_MAX : ℝ) : EReal) := by
    rw [← hcoe]
    exact EReal.coe_lt_coe_iff.mpr (by norm_num [DBL_MAX])
  have hsent : ¬ (DBL_LOWEST + EPSILON < DBL_LOWEST) := by norm_num [EPSILON]
  have hstep : genStep CFG1 P1 [[1]] ([], ((DBL_MAX : ℝ) : EReal)) =
      .ok ([1], ((-1 : ℝ) : EReal)) := by
    norm_num [genStep, fitnessesOf, calculate_fitness, sharpe_ratio,
      portfolio_return, portfolio_risk, portfolio_variance, Portfolio.num_assets,
      P1, CFG1, Except.map, bind, Except.bind, goTargetPenalty, fitnessDispatch,
      minFrom, pure, Except.pure, hsent, hcmp]
  exact ⟨hstep, (claim6_best_monotone.1 CFG1 P1 [[1]] _ _ hstep).1⟩

/-! ## Claim C10 -/

/-- Claim C10 counterexample: with a generation count of `0` and the
degenerate bounds `lower = upper = 0`, the population initialization's
renormalization throws before the loop, so `optimise` raises `normalize`'s
zero-sum error, not `portfolio_return`'s size-mismatch error — refuting the
claim's universal size-mismatch conclusion. -/
theorem claim10_counterexample :
    CFGD.generations = 0 ∧ 1 ≤ P1.num_assets ∧
    optimise CFGD P1 [[1]] POPS1 = .error ErrKind.normZero ∧
    ErrKind.normZero ≠ ErrKind.dimMismatch := by
  have hinit : initPopulation CFGD [[1]] = .error ErrKind.normZero := by
    norm_num [initPopulation, clip_weights, normalize, CFGD, bind, Except.bind]
  refine ⟨rfl, by simp [Portfolio.num_assets, P1], ?_, by decide⟩
  simp [optimise, hinit, bind, Except.bind]

/-- Claim C10 (amended): with a generation count of `0` over a portfolio with
at least one asset, `optimise` never returns a weight vector; moreover,
whenever the population initialization itself does not throw (its
clip-then-renormalize step can fail for degenerate bounds), the loop body
never runs — the tracker stays at the empty vector and `DBL_MAX` — and the
final consistency recomputation of the empty best vector's fitness raises the
size-mismatch error of `Portfolio::portfolio_return`. -/
theorem claim10_zero_generations (cfg : GAConfig) (p : Portfolio)
    (raw : List (List ℝ)) (pops : ℕ → List (List ℝ))
    (hg : cfg.generations = 0) (hp : 1 ≤ p.num_assets) :
    (∀ w, optimise cfg p raw pops ≠ .ok w) ∧
    calculate_fitness cfg p [] = .error ErrKind.dimMismatch ∧
    (∀ init, initPopulation cfg raw = .ok init →
      runGens cfg p (fun g => if g = 0 then init else pops g) cfg.generations =
        .ok ([], ((DBL_MAX : ℝ) : EReal)) ∧
      optimise cfg p raw pops = .error ErrKind.dimMismatch) := by
  have hchar : ¬ (0 = p.num_assets) := by omega
  have hcf : calculate_fitness cfg p [] = .error ErrKind.dimMismatch := by
    simp [calculate_fitness, sharpe_ratio, portfolio_return, hchar, bind, Except.bind]
  have hmain : ∀ init, initPopulation cfg raw = .ok init →
      runGens cfg p (fun g => if g = 0 then init else pops g) cfg.generations =
        .ok ([], ((DBL_MAX : ℝ) : EReal)) ∧
      optimise cfg p raw pops = .error ErrKind.dimMismatch := by
    intro init hinit
    have h0 : runGens cfg p (fun g => if g = 0 then init else pops g)
        cfg.generations = .ok ([], ((DBL_MAX : ℝ) : EReal)) := by
      rw [hg]
      simp [runGens]
    refine ⟨h0, ?_⟩
    simp [optimise, hinit, h0, hcf, bind, Except.bind]
  refine ⟨?_, hcf, hmain⟩
  intro w
  cases hinit : initPopulation cfg raw with
  | error e => simp [optimise, hinit, bind, Except.bind]
  | ok init =>
    rw [(hmain init hinit).2]
    simp

/-- Claim C10 witness: the zero-generation configuration `CFG0` (bounds
`[0, 1]`) over the one-asset portfolio `P1`: the initialization succeeds with
`[[1]]`, and `optimise` raises the size-mismatch error. -/
theorem claim10_witness :
    CFG0.generations = 0 ∧ 1 ≤ P1.num_assets ∧
    initPopulation CFG0 [[1]] = .ok [[1]] ∧
    (∀ w, optimise CFG0 P1 [[1]] POPS1 ≠ .ok w) ∧
    calculate_fitness CFG0 P1 [] = .error ErrKind.dimMismatch ∧
    runGens CFG0 P1 (fun g => if g = 0 then [[1]] else POPS1 g) CFG0.generations =
      .ok ([], ((DBL_MAX : ℝ) : EReal)) ∧
    optimise CFG0 P1 [[1]] POPS1 = .error ErrKind.dimMismatch := by
  have hinit : initPopulation CFG0 [[1]] = .ok [[1]] := by
    norm_num [initPopulation, clip_weights, normalize, CFG0, bind, Except.bind]
  have h := claim10_zero_generations CFG0 P1 [[1]] POPS1 rfl
    (by simp [Portfolio.num_assets, P1])
  exact ⟨rfl, by simp [Portfolio.num_assets, P1], hinit, h.1, h.2.1,
    (h.2.2 [[1]] hinit).1, (h.2.2 [[1]] hinit).2⟩

/-! ## Claim C5: list and inner-product support lemmas -/

lemma getD_drop_add (l : List ℝ) (n k : ℕ) (d : ℝ) :
    (l.drop n).getD k d = l.getD (n + k) d := by
  induction n generalizing l with
  | zero => simp
  | succ n ih =>
    cases l with
    | nil => simp
    | cons x t =>
      rw [List.drop_succ_cons, ih t, Nat.succ_add, List.getD_cons_succ]

lemma dotZip_comm (xs ys : List ℝ) : dotZip xs ys = dotZip ys xs := by
  unfold dotZip
  rw [List.zipWith_comm_of_comm _ mul_comm]

lemma dotZip_append (xs ys zs : List ℝ) :
    dotZip (xs ++ ys) zs = dotZip xs zs + dotZip ys (zs.drop xs.length) := by
  induction xs generalizing zs with
  | nil => simp [dotZip]
  | cons x xs ih =>
    cases zs with
    | nil => simp [dotZip]
    | cons z zs =>
      simp only [List.cons_append, dotZip_cons, ih, List.length_cons,
        List.drop_succ_cons]
      ring

lemma dotZip_append_right (xs ys zs : List ℝ) :
    dotZip xs (ys ++ zs) = dotZip xs ys + dotZip (xs.drop ys.length) zs := by
  rw [dotZip_comm, dotZip_append, dotZip_comm ys, dotZip_comm zs]

lemma dotZip_zero_right (xs ys : List ℝ) (h : ∀ y ∈ ys, y = 0) :
    dotZip xs ys = 0 := by
  induction xs generalizing ys with
  | nil => simp [dotZip]
  | cons x xs ih =>
    cases ys with
    | nil => simp [dotZip]
    | cons y ys =>
      rw [dotZip_cons, h y (by simp), mul_zero, zero_add]
      exact ih ys (fun z hz => h z (by simp [hz]))

lemma dotZip_singleton (x : ℝ) (ys : List ℝ) : dotZip [x] ys = x * ys.getD 0 0 := by
  cases ys <;> simp [dotZip]

lemma getD_of_mem_drop (ys : List ℝ) (m : ℕ) (h : ∀ k, m ≤ k → ys.getD k 0 = 0) :
    ∀ y ∈ ys.drop m, y = 0 := by
  intro y hy
  obtain ⟨k, hk⟩ := List.mem_iff_get.mp hy
  have : (ys.drop m).getD k 0 = y := by
    rw [List.getD_eq_getElem _ _ k.isLt]
    simp [← hk, List.get_eq_getElem]
  rw [← this, getD_drop_add]
  exact h (m + k) (Nat.le_add_right _ _)

lemma dotZip_eq_take (xs ys : List ℝ) (m : ℕ)
    (h : ∀ k, m ≤ k → ys.getD k 0 = 0) :
    dotZip xs ys = dotZip (xs.take m) ys := by
  conv_lhs => rw [← List.take_append_drop m xs]
  rw [dotZip_append]
  rcases le_or_lt m xs.length with hm | hm
  · have ht : (xs.take m).length = m := by simp [hm]
    rw [ht, dotZip_zero_right _ _ (getD_of_mem_drop ys m h), add_zero]
  · rw [List.drop_eq_nil_of_le (le_of_lt hm), dotZip_nil_left, add_zero]

lemma getD_replicate_zero (r k : ℕ) : (List.replicate r (0 : ℝ)).getD k 0 = 0 := by
  rcases lt_or_le k r with h | h
  · rw [List.getD_eq_getElem _ _ (by simpa using h), List.getElem_replicate]
  · rw [List.getD_eq_default]
    simpa using h

/-! ## Claim C5: the off-diagonal row loop -/

lemma cholRowGo_length (aRow : List ℝ) (prev : List (List ℝ)) (acc : List ℝ) :
    (cholRowGo aRow prev acc).length = acc.length + prev.length := by
  induction prev generalizing acc with
  | nil => simp [cholRowGo]
  | cons Lj rest ih =>
    rw [cholRowGo, ih]
    simp
    omega

lemma cholRowGo_prefix (aRow : List ℝ) (prev : List (List ℝ)) (acc : List ℝ) :
    ∃ t, cholRowGo aRow prev acc = acc ++ t := by
  induction prev generalizing acc with
  | nil => exact ⟨[], by simp [cholRowGo]⟩
  | cons Lj rest ih =>
    obtain ⟨t, ht⟩ := ih
      (acc ++ [(aRow.getD acc.length 0 - dotZip acc Lj) / Lj.getD acc.length 0])
    exact ⟨[(aRow.getD acc.length 0 - dotZip acc Lj) / Lj.getD acc.length 0] ++ t,
      by rw [cholRowGo, ht, List.append_assoc]⟩

lemma cholRowGo_dot (aRow : List ℝ) (prev : List (List ℝ)) (acc : List ℝ)
    (hz : ∀ r k, r < prev.length → acc.length + r < k → (prev.getD r []).getD k 0 = 0)
    (hd : ∀ r, r < prev.length → (prev.getD r []).getD (acc.length + r) 0 ≠ 0) :
    ∀ r, r < prev.length →
      dotZip (cholRowGo aRow prev acc) (prev.getD r []) =
        aRow.getD (acc.length + r) 0 := by
  induction prev generalizing acc with
  | nil =>
    intro r hr
    simp at hr
  | cons Lj rest ih =>
    intro r hr
    rw [cholRowGo]
    cases r with
    | zero =>
      have hzero : ∀ k, acc.length + 1 ≤ k → Lj.getD k 0 = 0 := by
        intro k hk
        have := hz 0 k (by simp) (by omega)
        simpa using this
      have hLjj : Lj.getD acc.length 0 ≠ 0 := by
        have := hd 0 (by simp)
        simpa using this
      show dotZip (cholRowGo aRow rest
        (acc ++ [(aRow.getD acc.length 0 - dotZip acc Lj) / Lj.getD acc.length 0])) Lj =
        aRow.getD (acc.length + 0) 0
      rw [dotZip_eq_take _ _ (acc.length + 1) hzero]
      obtain ⟨t, ht⟩ := cholRowGo_prefix aRow rest
        (acc ++ [(aRow.getD acc.length 0 - dotZip acc Lj) / Lj.getD acc.length 0])
      have htake : (cholRowGo aRow rest
          (acc ++ [(aRow.getD acc.length 0 - dotZip acc Lj) /
            Lj.getD acc.length 0])).take (acc.length + 1) =
          acc ++ [(aRow.getD acc.length 0 - dotZip acc Lj) / Lj.getD acc.length 0] := by
        rw [ht, show acc.length + 1 =
          (acc ++ [(aRow.getD acc.length 0 - dotZip acc Lj) /
            Lj.getD acc.length 0]).length by simp, List.take_left]
      rw [htake, dotZip_append, dotZip_singleton, getD_drop_add, Nat.add_zero]
      simp only [List.getD_eq_getElem?_getD] at hLjj ⊢
      field_simp
    | succ r' =>
      have hz' : ∀ r k, r < rest.length →
          (acc ++ [(aRow.getD acc.length 0 - dotZip acc Lj) /
            Lj.getD acc.length 0]).length + r < k →
          (rest.getD r []).getD k 0 = 0 := by
        intro r k hrk hlt
        have := hz (r + 1) k (by simpa using hrk) (by simp at hlt ⊢; omega)
        simpa using this
      have hd' : ∀ r, r < rest.length →
          (rest.getD r []).getD
            ((acc ++ [(aRow.getD acc.length 0 - dotZip acc Lj) /
              Lj.getD acc.length 0]).length + r) 0 ≠ 0 := by
        intro r hrk
        have := hd (r + 1) (by simpa using hrk)
        simp only [List.getD_cons_succ] at this
        simpa [Nat.add_assoc, Nat.add_comm 1 r] using this
      have := ih _ hz' hd' r' (by simpa using hr)
      simp only [List.getD_cons_succ]
      rw [this]
      simp
      ring_nf

/-! ## Claim C5: the invariant is preserved by one factorization step -/

lemma cholInv_step (A done : List (List ℝ)) (inv : CholInv A done)
    (hi : done.length < A.length)
    (hpiv : 0 < (A.getD done.length []).getD done.length 0 -
      dotZip (cholRowGo (A.getD done.length []) done [])
        (cholRowGo (A.getD done.length []) done [])) :
    CholInv A (cholStepT A.length done (A.getD done.length [])) := by
  set L := cholRowGo (A.getD done.length []) done [] with hL
  set v := (A.getD done.length []).getD done.length 0 - dotZip L L with hv
  set newRow := L ++ Real.sqrt v :: List.replicate (A.length - (done.length + 1)) 0
    with hNR
  have hstep : cholStepT A.length done (A.getD done.length []) = done ++ [newRow] := rfl
  rw [hstep]
  have hacc_len : L.length = done.length := by
    rw [hL, cholRowGo_length]
    simp
  have hnew_len : newRow.length = A.length := by
    rw [hNR]
    simp only [List.length_append, List.length_cons, List.length_replicate, hacc_len]
    omega
  have hget_old : ∀ p, p < done.length →
      (done ++ [newRow]).getD p [] = done.getD p [] :=
    fun p hp => List.getD_append _ _ _ _ hp
  have hget_new : (done ++ [newRow]).getD done.length [] = newRow := by
    rw [List.getD_append_right _ _ _ _ le_rfl, Nat.sub_self]
    rfl
  have hnew_at : ∀ j, j < done.length → newRow.getD j 0 = L.getD j 0 := by
    intro j hj
    rw [hNR]
    exact List.getD_append _ _ _ _ (by omega)
  have hnew_diag : newRow.getD done.length 0 = Real.sqrt v := by
    rw [hNR, List.getD_append_right _ _ _ _ (le_of_eq hacc_len), hacc_len,
      Nat.sub_self, List.getD_cons_zero]
  have hnew_upper : ∀ j, done.length < j → newRow.getD j 0 = 0 := by
    intro j hj
    rw [hNR, List.getD_append_right _ _ _ _ (by omega)]
    have hidx : j - L.length = (j - L.length - 1) + 1 := by omega
    rw [hidx, List.getD_cons_succ]
    exact getD_replicate_zero _ _
  have hvpos : 0 < v := hpiv
  have hdot : ∀ q, q < done.length →
      dotZip L (done.getD q []) = (A.getD done.length []).getD q 0 := by
    intro q hq
    have h0 := cholRowGo_dot (A.getD done.length []) done []
      (fun r k hr hk => inv.hupper r k hr (by simpa using hk))
      (fun r hr => by simpa using ne_of_gt (inv.hdiag r hr))
      q hq
    rw [show (([] : List ℝ).length + q) = q by simp] at h0
    exact h0
  have hdot_new_old : ∀ q, q < done.length →
      dotZip newRow (done.getD q []) = (A.getD done.length []).getD q 0 := by
    intro q hq
    have hqz : ∀ k, q + 1 ≤ k → (done.getD q []).getD k 0 = 0 :=
      fun k hk => inv.hupper q k hq (by omega)
    rw [dotZip_eq_take newRow _ (q + 1) hqz]
    have ht1 : newRow.take (q + 1) = L.take (q + 1) := by
      rw [hNR, List.take_append_of_le_length (by omega : q + 1 ≤ L.length)]
    rw [ht1, ← dotZip_eq_take L _ (q + 1) hqz]
    exact hdot q hq
  have hdot_new_new : dotZip newRow newRow =
      (A.getD done.length []).getD done.length 0 := by
    rw [hNR]
    rw [dotZip_append, dotZip_append_right, List.drop_length, dotZip_nil_left,
      add_zero, List.drop_left, dotZip_cons]
    have hzz : dotZip (List.replicate (A.length - (done.length + 1)) (0 : ℝ))
        (List.replicate (A.length - (done.length + 1)) (0 : ℝ)) = 0 :=
      dotZip_zero_right _ _ (fun y hy => List.eq_of_mem_replicate hy)
    rw [hzz, add_zero, Real.mul_self_sqrt hvpos.le, hv]
    ring
  refine ⟨?_, ?_, ?_, ?_, ?_⟩
  · simp only [List.length_append, List.length_singleton]
    omega
  · intro r hr
    rcases List.mem_append.mp hr with h | h
    · exact inv.hrow r h
    · rw [List.mem_singleton.mp h]
      exact hnew_len
  · intro p j hp hj
    have hp' : p < done.length + 1 := by simpa using hp
    rcases Nat.lt_or_ge p done.length with hplt | hpge
    · rw [hget_old p hplt]
      exact inv.hupper p j hplt hj
    · have hpe : p = done.length := by omega
      rw [hpe, hget_new]
      exact hnew_upper j (by omega)
  · intro p hp
    have hp' : p < done.length + 1 := by simpa using hp
    rcases Nat.lt_or_ge p done.length with hplt | hpge
    · rw [hget_old p hplt]
      exact inv.hdiag p hplt
    · have hpe : p = done.length := by omega
      rw [hpe, hget_new, hnew_diag]
      exact Real.sqrt_pos.mpr hvpos
  · intro p q hqp hp
    have hp' : p < done.length + 1 := by simpa using hp
    rcases Nat.lt_or_ge p done.length with hplt | hpge
    · rw [hget_old p hplt, hget_old q (by omega)]
      exact inv.hrec p q hqp hplt
    · have hpe : p = done.length := by omega
      rcases Nat.lt_or_ge q done.length with hql | hqge
      · rw [hpe, hget_new, hget_old q hql]
        exact hdot_new_old q hql
      · have hqe : q = done.length := by omega
        rw [hpe, hqe, hget_new]
        exact hdot_new_new

/-! ## Claim C5: the factorization run -/

lemma cholInv_step' (A done : List (List ℝ)) (i : ℕ) (hd : done.length = i)
    (inv : CholInv A done) (hi : i < A.length)
    (hpiv : 0 < (A.getD i []).getD i 0 -
      dotZip (cholRowGo (A.getD i []) done []) (cholRowGo (A.getD i []) done [])) :
    CholInv A (cholStepT A.length done (A.getD i [])) := by
  subst hd
  exact cholInv_step A done inv hi hpiv

lemma cholDoneT_zero (A : List (List ℝ)) : cholDoneT A 0 = [] := rfl

lemma cholDoneT_succ (A : List (List ℝ)) (i : ℕ) (hi : i < A.length) :
    cholDoneT A (i + 1) = cholStepT A.length (cholDoneT A i) (A.getD i []) := by
  unfold cholDoneT
  have hget : A[i]? = some (A.getD i []) := by
    rw [List.getElem?_eq_getElem hi, List.getD_eq_getElem _ _ hi]
  rw [List.take_succ, hget]
  simp [List.foldl_append]

lemma cholStepT_length (n : ℕ) (done : List (List ℝ)) (aRow : List ℝ) :
    (cholStepT n done aRow).length = done.length + 1 := by
  simp [cholStepT]

lemma cholDoneT_length (A : List (List ℝ)) (i : ℕ) (hi : i ≤ A.length) :
    (cholDoneT A i).length = i := by
  induction i with
  | zero => rfl
  | succ i ih =>
    rw [cholDoneT_succ A i (by omega), cholStepT_length, ih (by omega)]

lemma cholDoneT_inv (A : List (List ℝ)) (i : ℕ) (hi : i ≤ A.length)
    (hpos : ∀ j, j < i → 0 < cholPivot A j) : CholInv A (cholDoneT A i) := by
  induction i with
  | zero =>
    refine ⟨?_, ?_, ?_, ?_, ?_⟩ <;> simp [cholDoneT_zero]
  | succ i ih =>
    have hii : i < A.length := by omega
    rw [cholDoneT_succ A i hii]
    have inv := ih (by omega) (fun j hj => hpos j (by omega))
    have hlen_i : (cholDoneT A i).length = i := cholDoneT_length A i (by omega)
    have hp := hpos i (by omega)
    unfold cholPivot at hp
    exact cholInv_step' A (cholDoneT A i) i hlen_i inv hii hp

lemma cholStep_of_pos (n : ℕ) (done : List (List ℝ)) (aRow : List ℝ)
    (h : 0 < aRow.getD done.length 0 -
      dotZip (cholRowGo aRow done []) (cholRowGo aRow done [])) :
    cholStep n done aRow = .ok (cholStepT n done aRow) := by
  unfold cholStep
  rw [if_neg (not_le.mpr h)]

lemma cholStep_of_nonpos (n : ℕ) (done : List (List ℝ)) (aRow : List ℝ)
    (h : aRow.getD done.length 0 -
      dotZip (cholRowGo aRow done []) (cholRowGo aRow done []) ≤ 0) :
    cholStep n done aRow = .error .notPosDef := by
  unfold cholStep
  rw [if_pos h]

lemma chol_go_ok (A : List (List ℝ)) (i : ℕ) (hi : i ≤ A.length)
    (hpos : ∀ j, j < i → 0 < cholPivot A j) :
    List.foldlM (cholStep A.length) [] (A.take i) = .ok (cholDoneT A i) := by
  induction i with
  | zero => rfl
  | succ i ih =>
    have hii : i < A.length := by omega
    have hget : A[i]? = some (A.getD i []) := by
      rw [List.getElem?_eq_getElem hii, List.getD_eq_getElem _ _ hii]
    rw [List.take_succ, hget]
    rw [show (A.take i ++ (some (A.getD i [])).toList) = A.take i ++ [A.getD i []]
      from rfl]
    rw [List.foldlM_append, ih (by omega) (fun j hj => hpos j (by omega))]
    have hp := hpos i (by omega)
    unfold cholPivot at hp
    have hstep := cholStep_of_pos A.length (cholDoneT A i) (A.getD i [])
      (by rw [cholDoneT_length A i (by omega)]; exact hp)
    have hsucc := cholDoneT_succ A i hii
    simp only [List.getD_eq_getElem?_getD] at hstep hsucc
    simp [bind, Except.bind, hstep, hsucc, pure, Except.pure]

lemma chol_go_fail (A : List (List ℝ)) (i : ℕ) (hi : i < A.length)
    (hpos : ∀ j, j < i → 0 < cholPivot A j) (hneg : cholPivot A i ≤ 0) :
    List.foldlM (cholStep A.length) [] A = .error .notPosDef := by
  have hget : A[i]? = some (A.getD i []) := by
    rw [List.getElem?_eq_getElem hi, List.getD_eq_getElem _ _ hi]
  have h1 : List.foldlM (cholStep A.length) [] (A.take (i + 1)) =
      .error .notPosDef := by
    rw [List.take_succ, hget]
    rw [show (A.take i ++ (some (A.getD i [])).toList) = A.take i ++ [A.getD i []]
      from rfl]
    rw [List.foldlM_append, chol_go_ok A i (le_of_lt hi) hpos]
    have hstep := cholStep_of_nonpos A.length (cholDoneT A i) (A.getD i [])
      (by rw [cholDoneT_length A i (le_of_lt hi)]; exact hneg)
    simp only [List.getD_eq_getElem?_getD] at hstep
    simp [bind, Except.bind, hstep]
  calc List.foldlM (cholStep A.length) [] A
      = List.foldlM (cholStep A.length) [] (A.take (i + 1) ++ A.drop (i + 1)) := by
        rw [List.take_append_drop]
    _ = .error .notPosDef := by
        rw [List.foldlM_append, h1]
        rfl

/-! ## Claim C5: success and failure characterizations -/

lemma isSquare_head (A : List (List ℝ)) (h : IsSquare A) :
    (A.headD []).length = A.length := by
  cases A with
  | nil => rfl
  | cons r rest => exact h r (by simp)

lemma cholesky_of_nonsquare (A : List (List ℝ))
    (h : (A.headD []).length ≠ A.length) :
    cholesky_decompose A = .error .dimMismatch := by
  unfold cholesky_decompose
  rw [if_neg h]

lemma cholesky_ok_of_pos (A : List (List ℝ)) (hsq : (A.headD []).length = A.length)
    (hpos : ∀ j, j < A.length → 0 < cholPivot A j) :
    cholesky_decompose A = .ok (cholDoneT A A.length) := by
  unfold cholesky_decompose
  rw [if_pos hsq]
  have h := chol_go_ok A A.length le_rfl hpos
  rwa [List.take_length] at h

lemma cholesky_fail_of_bad (A : List (List ℝ)) (hsq : (A.headD []).length = A.length)
    (i : ℕ) (hi : i < A.length) (hpos : ∀ j, j < i → 0 < cholPivot A j)
    (hneg : cholPivot A i ≤ 0) :
    cholesky_decompose A = .error .notPosDef := by
  unfold cholesky_decompose
  rw [if_pos hsq]
  exact chol_go_fail A i hi hpos hneg

lemma exists_min_bad (A : List (List ℝ))
    (hbad : ∃ i, i < A.length ∧ cholPivot A i ≤ 0) :
    ∃ i, i < A.length ∧ cholPivot A i ≤ 0 ∧ ∀ j, j < i → 0 < cholPivot A j := by
  classical
  refine ⟨Nat.find hbad, (Nat.find_spec hbad).1, (Nat.find_spec hbad).2, ?_⟩
  intro j hj
  by_contra hc
  have hjlt : j < A.length := lt_trans hj (Nat.find_spec hbad).1
  exact Nat.find_min hbad hj ⟨hjlt, not_lt.mp hc⟩

lemma cholesky_pos_of_ok (A L : List (List ℝ))
    (hsq : (A.headD []).length = A.length)
    (hL : cholesky_decompose A = .ok L) :
    (∀ j, j < A.length → 0 < cholPivot A j) ∧ L = cholDoneT A A.length := by
  by_cases hpos : ∀ j, j < A.length → 0 < cholPivot A j
  · have h := cholesky_ok_of_pos A hsq hpos
    rw [hL] at h
    exact ⟨hpos, Except.ok.inj h⟩
  · push_neg at hpos
    obtain ⟨i, hi, hneg⟩ := hpos
    obtain ⟨i0, hi0, hneg0, hmin⟩ := exists_min_bad A ⟨i, hi, hneg⟩
    have h := cholesky_fail_of_bad A hsq i0 hi0 hmin hneg0
    rw [hL] at h
    exact absurd h (by simp)

/-! ## Claim C5: the product identity `L · Lᵗ = A` for symmetric `A` -/

lemma getD_map_of_lt {α β : Type} (g : α → β) (l : List α) (j : ℕ) (d : β) (d' : α)
    (hj : j < l.length) : (l.map g).getD j d = g (l.getD j d') := by
  rw [List.getD_eq_getElem _ _ (by simpa using hj), List.getElem_map,
    List.getD_eq_getElem _ _ hj]

lemma map_range_getD (l : List ℝ) :
    (List.range l.length).map (fun k => l.getD k 0) = l := by
  apply List.ext_get
  · simp
  · intro n h1 h2
    simp only [List.get_eq_getElem, List.getElem_map, List.getElem_range]
    rw [List.getD_eq_getElem _ _ h2]

lemma getD_self_mem (l : List (List ℝ)) (j : ℕ) (hj : j < l.length) :
    l.getD j [] ∈ l := by
  rw [List.getD_eq_getElem _ _ hj]
  exact List.getElem_mem _

lemma chol_product (A L : List (List ℝ)) (hsq : IsSquare A) (hsymm : IsSymm A)
    (hL : cholesky_decompose A = .ok L) :
    mdot L (mtranspose L) = A := by
  have hsq' := isSquare_head A hsq
  obtain ⟨hpos, hLd⟩ := cholesky_pos_of_ok A L hsq' hL
  have inv0 := cholDoneT_inv A A.length le_rfl hpos
  rw [← hLd] at inv0
  have hlenL : L.length = A.length := by
    rw [hLd]
    exact cholDoneT_length A A.length le_rfl
  have hdots : ∀ p q, p < A.length → q < A.length →
      dotZip (L.getD p []) (L.getD q []) = (A.getD p []).getD q 0 := by
    intro p q hp hq
    rcases le_or_lt q p with h | h
    · exact inv0.hrec p q h (by rw [hlenL]; exact hp)
    · rw [dotZip_comm, inv0.hrec q p (le_of_lt h) (by rw [hlenL]; exact hq)]
      exact hsymm q p
  rcases Nat.eq_zero_or_pos A.length with hn0 | hnpos
  · have hA : A = [] := List.length_eq_zero.mp hn0
    have hLnil : L = [] := List.length_eq_zero.mp (by rw [hlenL, hn0])
    rw [hA, hLnil]
    rfl
  · have hhead : (L.headD []).length = A.length := by
      cases L with
      | nil =>
        rw [← hlenL]
        rfl
      | cons r rest => exact inv0.hrow r (by simp)
    have hcol : ∀ j, j < A.length →
        (mtranspose L).map (fun brow => brow.getD j 0) = L.getD j [] := by
      intro j hj
      unfold mtranspose
      rw [hhead, List.map_map]
      have hfun : ∀ k, ((fun brow => brow.getD j 0) ∘
          (fun k => L.map (fun row => row.getD k 0))) k = (L.getD j []).getD k 0 := by
        intro k
        simp only [Function.comp]
        exact getD_map_of_lt (fun row => row.getD k 0) L j 0 []
          (by rw [hlenL]; exact hj)
      rw [List.map_congr_left (fun k _ => hfun k)]
      have hrowlen : (L.getD j []).length = A.length :=
        inv0.hrow _ (getD_self_mem L j (by rw [hlenL]; exact hj))
      rw [← hrowlen, map_range_getD]
    have hBlen : ((mtranspose L).headD []).length = A.length := by
      unfold mtranspose
      rw [hhead]
      obtain ⟨m, hm⟩ := Nat.exists_eq_succ_of_ne_zero (Nat.pos_iff_ne_zero.mp hnpos)
      rw [hm, List.range_succ_eq_map]
      simpa using hlenL.trans hm
    have hform : mdot L (mtranspose L) =
        L.map (fun arow =>
          (List.range A.length).map (fun j => dotZip arow (L.getD j []))) := by
      unfold mdot
      rw [hBlen]
      apply List.map_congr_left
      intro arow _
      apply List.map_congr_left
      intro j hj
      rw [hcol j (List.mem_range.mp hj)]
    rw [hform]
    apply List.ext_get
    · simp [hlenL]
    · intro p h1 h2
      simp only [List.get_eq_getElem, List.getElem_map]
      apply List.ext_get
      · simp only [List.length_map, List.length_range]
        exact (hsq (A[p]) (List.getElem_mem _)).symm
      · intro q hq1 hq2
        simp only [List.get_eq_getElem, List.getElem_map, List.getElem_range]
        have hp' : p < A.length := h2
        have hq' : q < A.length := by simpa using hq1
        have hpL : p < L.length := by
          rw [hlenL]
          exact hp'
        have hgl : L[p] = L.getD p [] := (List.getD_eq_getElem _ _ hpL).symm
        rw [hgl, hdots p q hp' hq', List.getD_eq_getElem _ _ hp',
          List.getD_eq_getElem _ _ (by rwa [hsq (A[p]) (List.getElem_mem _)])]

/-- Claim C5 counterexample: the non-symmetric square matrix `[[1,5],[0,1]]`
factors successfully (the algorithm reads only the lower triangle), but the
resulting `L·Lᵗ` is the identity, not the input — so "when it succeeds,
`L·Lᵗ = A`" fails for non-symmetric square inputs. -/
theorem claim5_counterexample :
    cholesky_decompose [[1, 5], [0, 1]] = .ok [[1, 0], [0, 1]] ∧
    mdot [[(1 : ℝ), 0], [0, 1]] (mtranspose [[(1 : ℝ), 0], [0, 1]]) ≠
      [[1, 5], [0, 1]] := by
  constructor
  · norm_num [cholesky_decompose, List.foldlM, cholStep, cholStepT, cholRowGo,
      dotZip, bind, Except.bind, pure, Except.pure]
  · norm_num [mdot, mtranspose, dotZip, List.range_succ]

/-- Claim C5 (amended): `cholesky_decompose` fails with the dimension error
exactly on non-square inputs, and with the numerical error exactly when the
factorization's first non-positive diagonal term exists; it succeeds exactly
when every diagonal term stays positive, in which case `L` has the input's
dimensions and is lower-triangular, and — for **symmetric** `A` (the
amendment; the algorithm never reads the upper triangle, so a non-symmetric
square input succeeds with `L·Lᵗ ≠ A`) — satisfies `L·Lᵗ = A`. -/
theorem claim5_cholesky :
    (∀ A : List (List ℝ), (A.headD []).length ≠ A.length →
      cholesky_decompose A = .error ErrKind.dimMismatch) ∧
    (∀ A : List (List ℝ), IsSquare A →
      ((∃ L, cholesky_decompose A = .ok L) ↔
        ∀ i, i < A.length → 0 < cholPivot A i)) ∧
    (∀ A : List (List ℝ), IsSquare A →
      (cholesky_decompose A = .error ErrKind.notPosDef ↔
        ∃ i, i < A.length ∧ cholPivot A i ≤ 0 ∧ ∀ j, j < i → 0 < cholPivot A j)) ∧
    (∀ A L : List (List ℝ), cholesky_decompose A = .ok L →
      L.length = A.length ∧ (∀ r ∈ L, r.length = A.length) ∧
      ∀ i j, i < j → (L.getD i []).getD j 0 = 0) ∧
    (∀ A L : List (List ℝ), IsSquare A → IsSymm A →
      cholesky_decompose A = .ok L → mdot L (mtranspose L) = A) := by
  refine ⟨cholesky_of_nonsquare, ?_, ?_, ?_, chol_product⟩
  · intro A hsqA
    have hsq' := isSquare_head A hsqA
    constructor
    · rintro ⟨L, hL⟩
      exact (cholesky_pos_of_ok A L hsq' hL).1
    · intro hpos
      exact ⟨_, cholesky_ok_of_pos A hsq' hpos⟩
  · intro A hsqA
    have hsq' := isSquare_head A hsqA
    constructor
    · intro herr
      by_cases hpos : ∀ j, j < A.length → 0 < cholPivot A j
      · rw [cholesky_ok_of_pos A hsq' hpos] at herr
        simp at herr
      · push_neg at hpos
        obtain ⟨i, hi, hneg⟩ := hpos
        exact exists_min_bad A ⟨i, hi, hneg⟩
    · rintro ⟨i, hi, hneg, hmin⟩
      exact cholesky_fail_of_bad A hsq' i hi hmin hneg
  · intro A L hL
    have hsq' : (A.headD []).length = A.length := by
      by_contra hne
      rw [cholesky_of_nonsquare A hne] at hL
      simp at hL
    obtain ⟨hpos, hLd⟩ := cholesky_pos_of_ok A L hsq' hL
    have inv0 := cholDoneT_inv A A.length le_rfl hpos
    rw [← hLd] at inv0
    have hlenL : L.length = A.length := by
      rw [hLd]
      exact cholDoneT_length A A.length le_rfl
    refine ⟨hlenL, inv0.hrow, ?_⟩
    intro i j hij
    rcases Nat.lt_or_ge i L.length with hi | hi
    · exact inv0.hupper i j hi hij
    · rw [List.getD_eq_default _ _ hi]
      simp

/-- Claim C5 witness: the symmetric positive-definite `[[4,2],[2,2]]` factors
into `[[2,0],[1,1]]`, and the product identity holds there. -/
theorem claim5_witness :
    IsSquare [[(4 : ℝ), 2], [2, 2]] ∧ IsSymm [[(4 : ℝ), 2], [2, 2]] ∧
    cholesky_decompose [[(4 : ℝ), 2], [2, 2]] = .ok [[2, 0], [1, 1]] ∧
    mdot [[(2 : ℝ), 0], [1, 1]] (mtranspose [[(2 : ℝ), 0], [1, 1]]) =
      [[4, 2], [2, 2]] := by
  have hsq : IsSquare [[(4 : ℝ), 2], [2, 2]] := by
    intro r hr
    simp only [List.mem_cons, List.not_mem_nil, or_false] at hr
    rcases hr with rfl | rfl <;> rfl
  have hsymm : IsSymm [[(4 : ℝ), 2], [2, 2]] := by
    intro i j
    rcases i with _ | _ | i <;> rcases j with _ | _ | j <;>
      simp [List.getD_cons_succ, List.getD_cons_zero]
  have h4 : Real.sqrt 4 = 2 := by
    rw [show (4 : ℝ) = 2 ^ 2 by norm_num]
    exact Real.sqrt_sq (by norm_num)
  have hok : cholesky_decompose [[(4 : ℝ), 2], [2, 2]] = .ok [[2, 0], [1, 1]] := by
    norm_num [cholesky_decompose, List.foldlM, cholStep, cholStepT, cholRowGo,
      dotZip, bind, Except.bind, pure, Except.pure, h4]
  exact ⟨hsq, hsymm, hok,
    claim5_cholesky.2.2.2.2 [[(4 : ℝ), 2], [2, 2]] [[2, 0], [1, 1]] hsq hsymm hok⟩

end CPO
